import Mathlib

/-!
Verification of the `ode` package (numerical methods for ordinary
differential equations) against its specification.

The Go source stores state in `float64` slices.  Here the numeric type
`Num` is modelled by the exact rationals `ℚ`: every operation the code
performs (addition, multiplication, division by a step size, comparison)
is transcribed verbatim; only the rounding of machine floats is absent.
Slices become `List Num`; an indexed write `a[i] = v` becomes `List.set`,
an indexed read `a[i]` becomes `List.getD i 0` (the Go code would panic
on an out-of-range read or write, so theorems carry the length hypotheses
under which no panic occurs; out of range, `getD`/`set` return the default
or leave the list unchanged).

The two stepper loops (`FixedStep`, `AdaptiveStep`) are while-loops whose
termination depends on the numeric arguments (they genuinely diverge, for
instance, for `h = 0`), so they are embedded with an explicit fuel
parameter: each recursive unfolding consumes one unit of fuel, and a run
that exhausts its fuel stops early.  All theorems either hold for every
fuel or state the fuel they need.
-/

namespace ODE

/-- Num is the numeric type of the package (`type Num float64`), modelled
by the exact rationals. -/
abbrev Num : Type := ℚ

/-- Result is a row in a table of calculated results
(`type Result struct { t Num; xx []Num }`). -/
structure Result where
  t : Num
  xx : List Num
  deriving DecidableEq, Repr

/-- Ode is a first order differential equation
(`type Ode func([]Num, Num) Num`). -/
abbrev Ode : Type := List Num → Num → Num

/-- Integrator is the integration method, like mid point
(`type Integrator func([]Num, Num, Num, []Ode) []Num`). -/
abbrev Integrator : Type := List Num → Num → Num → List Ode → List Num

/-- Default element used when reading past the end of an equation slice;
it returns 0, matching the zero initialisation of the derivative arrays
that such an out-of-range read would leave in place. -/
def zeroOde : Ode := fun _ _ => 0

/-- In-place elementwise increment, `for i, k := range kk { xx[i] += k }`:
entries of `xx` beyond the length of `kk` are left unchanged.  (If `kk`
were longer than `xx` the Go code would panic; here the excess is
ignored, and theorems that depend on this loop assume it cannot happen.) -/
def addInc (xx kk : List Num) : List Num :=
  (List.range xx.length).map fun i =>
    xx.getD i 0 + if i < kk.length then kk.getD i 0 else 0

/-- Construction of `x_full_tmp` in `AdaptiveStep`: a zero-initialised
array of the length of `xx` whose entries are set to `xx[i] + k` by
`for i, k := range kk_full { x_full_tmp[i] = xx[i] + k }`; entries beyond
the length of `kk` keep their zero initialisation. -/
def fullTmp (xx kk : List Num) : List Num :=
  (List.range xx.length).map fun i =>
    if i < kk.length then xx.getD i 0 + kk.getD i 0 else 0

/-- Accumulator loop of `quality`: walks the two slices in step, keeping
the running maximum `q`.  The third equation corresponds to an index where
the Go code would panic (`xHalf` shorter than `xFull`); no theorem relies
on it. -/
def qualityGo (h : Num) : List Num → List Num → Num → Num
  | [], _, q => q
  | full :: fs, half :: hs, q =>
      let diff := full - half
      let c := if diff ≥ 0 then diff / h else -diff / h
      qualityGo h fs hs (if c > q then c else q)
  | _ :: _, [], q => q

/-- quality compares results with h and h/2 (`func quality`). -/
def quality (xFull xHalf : List Num) (h : Num) : Num :=
  qualityGo h xFull xHalf 0

/-- Euler integration method (deriv a start of interval). -/
def Euler (xx : List Num) (t h : Num) (dxdt : List Ode) : List Num :=
  let dd := (List.range xx.length).map fun i =>
    if i < dxdt.length then (dxdt.getD i zeroOde) xx t else 0
  dd.map fun d => h * d

/-- Mid point integration method (derive half way interval). -/
def MidPoint (x_n : List Num) (t_n h : Num) (dxdt : List Ode) : List Num :=
  let dd := (List.range x_n.length).map fun i =>
    if i < dxdt.length then (dxdt.getD i zeroOde) x_n t_n else 0
  let x_2 := (List.range x_n.length).map fun i =>
    x_n.getD i 0 + dd.getD i 0 * h / 2
  let dd2 := (List.range x_n.length).map fun i =>
    if i < dxdt.length then (dxdt.getD i zeroOde) x_2 (t_n + h / 2) else dd.getD i 0
  dd2.map fun d => h * d

/-- Sequential writes `xxNext[i] = xx0[i] + c*d` performed by the stage
loops of `Rk4`, starting at index `i` with the listed derivative values.
Used to describe the intermediate contents of `xxNext`. -/
def applyW (xx0 : List Num) (c : Num) : Nat → List Num → List Num → List Num
  | _, [], nx => nx
  | i, d :: ds, nx => applyW xx0 c (i + 1) ds (nx.set i (xx0.getD i 0 + c * d))

/-- Read-write stage loop of `Rk4`
(`for i, f := range dxdt { dd[i] = f(xxNext, time); xxNext[i] = xx0[i] + c*dd[i] }`):
each equation is evaluated on the current `xxNext`, which the same
iteration then overwrites at its own index.  Returns the list of computed
derivative values together with the final `xxNext`. -/
def rk4Pass (time c : Num) (xx0 : List Num) : Nat → List Ode → List Num → List Num × List Num
  | _, [], nx => ([], nx)
  | i, f :: fs, nx =>
    let d := f nx time
    let rest := rk4Pass time c xx0 (i + 1) fs (nx.set i (xx0.getD i 0 + c * d))
    (d :: rest.1, rest.2)

/-- First stage loop of `Rk4`
(`for i, f := range dxdt { dd0[i] = f(xx0, t); xxNext[i] = xx0[i] + h/2*dd0[i] }`):
the equations read the untouched input `xx0`, and the iteration writes
`xxNext` at its own index. -/
def rk4Pass0 (t h : Num) (xx0 : List Num) : Nat → List Ode → List Num → List Num × List Num
  | _, [], nx => ([], nx)
  | i, f :: fs, nx =>
    let d := f xx0 t
    let rest := rk4Pass0 t h xx0 (i + 1) fs (nx.set i (xx0.getD i 0 + h / 2 * d))
    (d :: rest.1, rest.2)

/-- Final stage loop of `Rk4` (`for i, f := range dxdt { dd3[i] = f(xxNext, t+h) }`):
read-only, so every equation is evaluated on the same `xxNext`. -/
def rk4Pass3 (time : Num) (nx : List Num) : List Ode → List Num
  | [] => []
  | f :: fs => f nx time :: rk4Pass3 time nx fs

/-- Derivative values `dd0` computed by the first stage loop of `Rk4`. -/
def rk4dd0 (xx0 : List Num) (t h : Num) (dxdt : List Ode) : List Num :=
  (rk4Pass0 t h xx0 0 dxdt (List.replicate xx0.length 0)).1

/-- Contents of `xxNext` after the first stage loop of `Rk4`. -/
def rk4nxA (xx0 : List Num) (t h : Num) (dxdt : List Ode) : List Num :=
  (rk4Pass0 t h xx0 0 dxdt (List.replicate xx0.length 0)).2

/-- Derivative values `dd1` computed by the second stage loop of `Rk4`. -/
def rk4dd1 (xx0 : List Num) (t h : Num) (dxdt : List Ode) : List Num :=
  (rk4Pass (t + h / 2) (h / 2) xx0 0 dxdt (rk4nxA xx0 t h dxdt)).1

/-- Contents of `xxNext` after the second stage loop of `Rk4`. -/
def rk4nxB (xx0 : List Num) (t h : Num) (dxdt : List Ode) : List Num :=
  (rk4Pass (t + h / 2) (h / 2) xx0 0 dxdt (rk4nxA xx0 t h dxdt)).2

/-- Derivative values `dd2` computed by the third stage loop of `Rk4`. -/
def rk4dd2 (xx0 : List Num) (t h : Num) (dxdt : List Ode) : List Num :=
  (rk4Pass (t + h / 2) h xx0 0 dxdt (rk4nxB xx0 t h dxdt)).1

/-- Contents of `xxNext` after the third stage loop of `Rk4`; the fourth
stage loop performs no writes, so this is the trial state seen by every
equation of the fourth stage. -/
def rk4nxC (xx0 : List Num) (t h : Num) (dxdt : List Ode) : List Num :=
  (rk4Pass (t + h / 2) h xx0 0 dxdt (rk4nxB xx0 t h dxdt)).2

/-- Derivative values `dd3` computed by the fourth (read-only) stage loop
of `Rk4`. -/
def rk4dd3 (xx0 : List Num) (t h : Num) (dxdt : List Ode) : List Num :=
  rk4Pass3 (t + h) (rk4nxC xx0 t h dxdt) dxdt

/-- Trial state on which equation `i` of the second stage loop of `Rk4`
is evaluated: `xxNext` after the writes of the first loop and of the
second loop's iterations before `i`. -/
def rk4trial1 (xx0 : List Num) (t h : Num) (dxdt : List Ode) (i : Nat) : List Num :=
  applyW xx0 (h / 2) 0 ((rk4dd1 xx0 t h dxdt).take i) (rk4nxA xx0 t h dxdt)

/-- Trial state on which equation `i` of the third stage loop of `Rk4`
is evaluated: `xxNext` after the writes of the second loop and of the
third loop's iterations before `i`. -/
def rk4trial2 (xx0 : List Num) (t h : Num) (dxdt : List Ode) (i : Nat) : List Num :=
  applyW xx0 h 0 ((rk4dd2 xx0 t h dxdt).take i) (rk4nxB xx0 t h dxdt)

/-- Rk4 Runge Kutta integration method (weighted avarage deriv):
`kk[i] = h/6 * (dd0[i] + 2*dd1[i] + 2*dd2[i] + dd3[i])` over the length
of `xx0`; the derivative arrays are zero past the equations written, as
in the zero-initialised Go slices. -/
def Rk4 (xx0 : List Num) (t h : Num) (dxdt : List Ode) : List Num :=
  (List.range xx0.length).map fun i =>
    h / 6 * ((rk4dd0 xx0 t h dxdt).getD i 0 + 2 * (rk4dd1 xx0 t h dxdt).getD i 0 +
      2 * (rk4dd2 xx0 t h dxdt).getD i 0 + (rk4dd3 xx0 t h dxdt).getD i 0)

/-- Loop body of `FixedStep`, with explicit fuel: while `T <= tmax`,
compute the increment, record a snapshot (a copy of `xx`) at time `T`,
add the increment to `xx` and advance `T` by `h`.  Returns the recorded
rows together with the final contents of the caller's slice `xx`. -/
def fixedLoop (method : Integrator) (dxdt : List Ode) (tmax h : Num) :
    Nat → List Num → Num → List Result × List Num
  | 0, xx, _ => ([], xx)
  | fuel + 1, xx, T =>
    if T ≤ tmax then
      let kk := method xx T h dxdt
      let rest := fixedLoop method dxdt tmax h fuel (addInc xx kk) (T + h)
      (⟨T, xx⟩ :: rest.1, rest.2)
    else ([], xx)

/-- FixedStep iterates over a set of ode's with fixed step h.  The fuel
parameter bounds the number of loop iterations (the Go loop can diverge,
for instance when `h = 0`). -/
def FixedStep (method : Integrator) (dxdt : List Ode) (xx : List Num)
    (t0 tmax h : Num) (fuel : Nat) : List Result × List Num :=
  fixedLoop method dxdt tmax h fuel xx t0

/-- Last computed `kk_full` of an attempt of the inner retry loop of
`AdaptiveStep`: `kk_full = method(xx, T, h, dxdt)`. -/
def kkFullAt (method : Integrator) (dxdt : List Ode) (xx : List Num) (T h : Num) : List Num :=
  method xx T h dxdt

/-- The `x_full_tmp` value of an attempt of the inner retry loop of
`AdaptiveStep`. -/
def xFullAt (method : Integrator) (dxdt : List Ode) (xx : List Num) (T h : Num) : List Num :=
  fullTmp xx (kkFullAt method dxdt xx T h)

/-- The `x_half_tmp` value of an attempt after its two successive half
steps (both evaluated at time `T`, as in the source). -/
def xHalfAt (method : Integrator) (dxdt : List Ode) (xx : List Num) (T h : Num) : List Num :=
  let x1 := addInc xx (method xx T (h / 2) dxdt)
  addInc x1 (method x1 T (h / 2) dxdt)

/-- The quality value `q` computed by an attempt of the inner retry loop
of `AdaptiveStep` at step size `h`. -/
def attemptQ (method : Integrator) (dxdt : List Ode) (xx : List Num) (T h : Num) : Num :=
  quality (xFullAt method dxdt xx T h) (xHalfAt method dxdt xx T h) h

/-- Inner retry loop of `AdaptiveStep` (`for a := 0; a < 5; a++`), with
`a` counting the retries still allowed after the current attempt (so the
loop is entered with `a = 4`).  Each attempt computes `q` and records
`H = h`; then, in priority order: below `hmin` accept; `q > 0.005` halve
and retry if a retry remains (on the last attempt the halving still
happens but the loop exits); `q < 0.0005` double and accept; otherwise
accept.  Returns `(H, h, kk_full)` as left by the loop: the step used for
this outer iteration, the step for the next outer iteration, and the last
computed full-step increment. -/
def innerLoop (method : Integrator) (dxdt : List Ode) (xx : List Num)
    (T hmin : Num) : Nat → Num → Num × Num × List Num
  | a, h =>
    if h < hmin then (h, h, kkFullAt method dxdt xx T h)
    else if attemptQ method dxdt xx T h > 0.005 then
      match a with
      | 0 => (h, h / 2, kkFullAt method dxdt xx T h)
      | a' + 1 => innerLoop method dxdt xx T hmin a' (h / 2)
    else if attemptQ method dxdt xx T h < 0.0005 then
      (h, h * 2, kkFullAt method dxdt xx T h)
    else (h, h, kkFullAt method dxdt xx T h)

/-- Outer loop of `AdaptiveStep`, with explicit fuel: while `T <= tmax`,
run the inner retry loop, record a snapshot (a copy of `xx`) at time `T`,
advance `T` by the used step `H` and add the last full-step increment to
`xx`.  Returns the recorded rows together with the final contents of the
caller's slice `xx`. -/
def adaptiveLoop (method : Integrator) (dxdt : List Ode) (tmax hmin : Num) :
    Nat → List Num → Num → Num → List Result × List Num
  | 0, xx, _, _ => ([], xx)
  | fuel + 1, xx, T, h =>
    if T ≤ tmax then
      let res := innerLoop method dxdt xx T hmin 4 h
      let rest := adaptiveLoop method dxdt tmax hmin fuel (addInc xx res.2.2) (T + res.1) res.2.1
      (⟨T, xx⟩ :: rest.1, rest.2)
    else ([], xx)

/-- AdaptiveStep iterates over a set of ode's with adaptive h, starting
with h and minimum hmin.  The fuel parameter bounds the number of outer
iterations (the Go loop can diverge, for instance when `hmin ≤ 0` and the
step keeps halving). -/
def AdaptiveStep (method : Integrator) (dxdt : List Ode) (xx : List Num)
    (t0 tmax hmin h : Num) (fuel : Nat) : List Result × List Num :=
  adaptiveLoop method dxdt tmax hmin fuel xx t0 h

/-- Number of attempts the inner retry loop of `AdaptiveStep` executes,
mirroring the recursion of `innerLoop` (instrumentation only: the Go loop
header `for a := 0; a < 5; a++` allows at most `a + 1` attempts when the
loop is entered with `a` retries remaining). -/
def innerCount (method : Integrator) (dxdt : List Ode) (xx : List Num)
    (T hmin : Num) : Nat → Num → Nat
  | a, h =>
    if h < hmin then 1
    else if attemptQ method dxdt xx T h > 0.005 then
      match a with
      | 0 => 1
      | a' + 1 => 1 + innerCount method dxdt xx T hmin a' (h / 2)
    else if attemptQ method dxdt xx T h < 0.0005 then 1
    else 1

/-- Store of allocated slices for the aliasing-sensitive model of the
steppers: a reference is an index into the store, and `make` allocates by
appending at the end.  This model makes the deep-copy snapshot visible:
the copy allocates a fresh slice, while an aliasing implementation would
have recorded the live reference itself. -/
abbrev Store : Type := List (List Num)

/-- Reference-level transcription of the `FixedStep` loop: the live state
is the slice at index `live` of the store; each iteration computes the
increment from the live contents, allocates a fresh slice holding a copy
of the live contents (`x := make(...); copy(x, xx)`) whose reference is
recorded in the trajectory, and then mutates the live slice in place
(`xx[i] += k`).  Returns the final store and the trajectory of
(time, reference) pairs. -/
def fixedLoopRef (method : Integrator) (dxdt : List Ode) (tmax h : Num) :
    Nat → Store → Nat → Num → Store × List (Num × Nat)
  | 0, s, _, _ => (s, [])
  | fuel + 1, s, live, T =>
    if T ≤ tmax then
      let xx := s.getD live []
      let kk := method xx T h dxdt
      let s2 := (s ++ [xx]).set live (addInc xx kk)
      let rest := fixedLoopRef method dxdt tmax h fuel s2 live (T + h)
      (rest.1, (T, s.length) :: rest.2)
    else (s, [])

/-- Reference-level transcription of the `AdaptiveStep` outer loop (the
inner retry loop only reads the live contents and builds temporaries, so
it is shared with the value-level model).  Snapshot and in-place
mutation are as in `fixedLoopRef`. -/
def adaptiveLoopRef (method : Integrator) (dxdt : List Ode) (tmax hmin : Num) :
    Nat → Store → Nat → Num → Num → Store × List (Num × Nat)
  | 0, s, _, _, _ => (s, [])
  | fuel + 1, s, live, T, h =>
    if T ≤ tmax then
      let xx := s.getD live []
      let res := innerLoop method dxdt xx T hmin 4 h
      let s2 := (s ++ [xx]).set live (addInc xx res.2.2)
      let rest := adaptiveLoopRef method dxdt tmax hmin fuel s2 live (T + res.1) res.2.1
      (rest.1, (T, s.length) :: rest.2)
    else (s, [])

/-! ### Basic indexing lemmas -/

theorem getD_range_map (f : Nat → Num) (n i : Nat) (d : Num) :
    ((List.range n).map f).getD i d = if i < n then f i else d := by
  rcases lt_or_ge i n with hi | hi
  · simp [List.getD_eq_getElem?_getD, List.getElem?_map, List.getElem?_range hi, hi]
  · have hlen : ((List.range n).map f).length ≤ i := by simpa using hi
    simp [List.getD_eq_getElem?_getD, List.getElem?_len_le hlen, Nat.not_lt.mpr hi]

theorem map_range_getD (xs : List Num) :
    (List.range xs.length).map (fun i => xs.getD i 0) = xs := by
  apply List.ext_getElem?
  intro n
  rcases lt_or_ge n xs.length with hn | hn
  · simp [List.getElem?_map, List.getElem?_range hn, List.getD_eq_getElem?_getD,
      List.getElem?_eq_getElem hn]
  · have h1 : ((List.range xs.length).map (fun i => xs.getD i 0)).length ≤ n := by simpa using hn
    simp [List.getElem?_len_le h1, List.getElem?_len_le hn, hn]

theorem getD_set {α : Type _} (l : List α) (i j : Nat) (v d : α) :
    (l.set i v).getD j d = if i = j ∧ i < l.length then v else l.getD j d := by
  simp only [List.getD_eq_getElem?_getD, List.getElem?_set]
  by_cases hij : i = j
  · subst hij
    by_cases hlen : i < l.length
    · simp [hlen]
    · simp [hlen, List.getElem?_len_le (Nat.le_of_not_lt hlen)]
  · simp [hij]

theorem getD_append_left {α : Type _} (l1 l2 : List α) (j : Nat) (d : α)
    (hj : j < l1.length) : (l1 ++ l2).getD j d = l1.getD j d := by
  simp [List.getD_eq_getElem?_getD, List.getElem?_append, hj]

theorem getD_concat_self {α : Type _} (l : List α) (x : α) (d : α) :
    (l ++ [x]).getD l.length d = x := by
  simp [List.getD_eq_getElem?_getD, List.getElem?_concat_length]

theorem length_addInc (xx kk : List Num) : (addInc xx kk).length = xx.length := by
  simp [addInc]

theorem getD_addInc (xx kk : List Num) (i : Nat) (hi : i < xx.length) :
    (addInc xx kk).getD i 0 =
      xx.getD i 0 + if i < kk.length then kk.getD i 0 else 0 := by
  simp [addInc, getD_range_map, hi]

theorem length_fullTmp (xx kk : List Num) : (fullTmp xx kk).length = xx.length := by
  simp [fullTmp]

/-- Adding a zero increment of any length leaves the state unchanged. -/
theorem addInc_replicate_zero (xx : List Num) (m : Nat) :
    addInc xx (List.replicate m 0) = xx := by
  unfold addInc
  have h1 : ∀ i : Nat, (xx.getD i 0 + if i < (List.replicate m (0 : Num)).length
      then (List.replicate m (0 : Num)).getD i 0 else 0) = xx.getD i 0 := by
    intro i
    rcases lt_or_ge i m with hi | hi
    · simp [List.getD_eq_getElem?_getD, List.getElem?_replicate, hi]
    · simp [Nat.not_lt.mpr (by simpa using hi)]
  calc (List.range xx.length).map (fun i => xx.getD i 0 + if i < (List.replicate m (0:Num)).length
          then (List.replicate m (0:Num)).getD i 0 else 0)
      = (List.range xx.length).map (fun i => xx.getD i 0) := by
        exact List.map_congr_left fun i _ => h1 i
    _ = xx := map_range_getD xx

/-! ### Characterisation of the Rk4 stage loops -/

theorem length_applyW (xx0 : List Num) (c : Num) :
    ∀ (ds : List Num) (i : Nat) (nx : List Num),
      (applyW xx0 c i ds nx).length = nx.length := by
  intro ds
  induction ds with
  | nil => intro i nx; rfl
  | cons d ds ih => intro i nx; simp [applyW, ih]

theorem getD_applyW (xx0 : List Num) (c : Num) :
    ∀ (ds : List Num) (i j : Nat) (nx : List Num),
      (applyW xx0 c i ds nx).getD j 0 =
        if i ≤ j ∧ j < i + ds.length ∧ j < nx.length
        then xx0.getD j 0 + c * ds.getD (j - i) 0
        else nx.getD j 0 := by
  intro ds
  induction ds with
  | nil =>
    intro i j nx
    have hcond : ¬ (i ≤ j ∧ j < i + ([] : List Num).length ∧ j < nx.length) := by
      simp only [List.length_nil]; omega
    rw [show applyW xx0 c i [] nx = nx from rfl, if_neg hcond]
  | cons d ds ih =>
    intro i j nx
    rw [show applyW xx0 c i (d :: ds) nx
        = applyW xx0 c (i + 1) ds (nx.set i (xx0.getD i 0 + c * d)) from rfl]
    rw [ih (i + 1) j (nx.set i (xx0.getD i 0 + c * d))]
    rw [List.length_set, getD_set]
    by_cases h1 : i + 1 ≤ j ∧ j < i + 1 + ds.length ∧ j < nx.length
    · have h2 : i ≤ j ∧ j < i + (d :: ds).length ∧ j < nx.length := by
        simp only [List.length_cons]; omega
      rw [if_pos h1, if_pos h2]
      have hji : j - i = (j - (i + 1)) + 1 := by omega
      rw [hji]
      simp [List.getD_cons_succ]
    · rw [if_neg h1]
      by_cases h3 : i = j ∧ i < nx.length
      · have h4 : i ≤ j ∧ j < i + (d :: ds).length ∧ j < nx.length := by
          simp only [List.length_cons]; omega
        rw [if_pos h3, if_pos h4]
        rcases h3 with ⟨h3, _⟩
        subst h3
        simp
      · rw [if_neg h3]
        have h5 : ¬ (i ≤ j ∧ j < i + (d :: ds).length ∧ j < nx.length) := by
          simp only [List.length_cons]; omega
        rw [if_neg h5]

theorem rk4Pass_spec (time c : Num) (xx0 : List Num) :
    ∀ (fs : List Ode) (i : Nat) (nx : List Num),
      (rk4Pass time c xx0 i fs nx).1.length = fs.length ∧
      (rk4Pass time c xx0 i fs nx).2 = applyW xx0 c i (rk4Pass time c xx0 i fs nx).1 nx ∧
      ∀ k, k < fs.length →
        (rk4Pass time c xx0 i fs nx).1.getD k 0 =
          (fs.getD k zeroOde)
            (applyW xx0 c i ((rk4Pass time c xx0 i fs nx).1.take k) nx) time := by
  intro fs
  induction fs with
  | nil => intro i nx; simp [rk4Pass, applyW]
  | cons f fs ih =>
    intro i nx
    set nx' := nx.set i (xx0.getD i 0 + c * f nx time) with hnx'
    have hunf : rk4Pass time c xx0 i (f :: fs) nx
        = (f nx time :: (rk4Pass time c xx0 (i+1) fs nx').1,
           (rk4Pass time c xx0 (i+1) fs nx').2) := rfl
    obtain ⟨ihlen, ihnx, ihd⟩ := ih (i + 1) nx'
    refine ⟨by simp [hunf, ihlen], ?_, ?_⟩
    · exact ihnx
    · intro k hk
      match k with
      | 0 => simp [hunf, applyW]
      | k + 1 =>
        have hk' : k < fs.length := by simpa using hk
        have := ihd k hk'
        simp only [hunf, List.getD_cons_succ, List.take_succ_cons, List.getD_cons_succ] at *
        rw [this]
        rfl

theorem rk4Pass0_spec (t h : Num) (xx0 : List Num) :
    ∀ (fs : List Ode) (i : Nat) (nx : List Num),
      (rk4Pass0 t h xx0 i fs nx).1.length = fs.length ∧
      (rk4Pass0 t h xx0 i fs nx).2
        = applyW xx0 (h / 2) i (rk4Pass0 t h xx0 i fs nx).1 nx ∧
      ∀ k, k < fs.length →
        (rk4Pass0 t h xx0 i fs nx).1.getD k 0 = (fs.getD k zeroOde) xx0 t := by
  intro fs
  induction fs with
  | nil => intro i nx; simp [rk4Pass0, applyW]
  | cons f fs ih =>
    intro i nx
    set nx' := nx.set i (xx0.getD i 0 + h / 2 * f xx0 t) with hnx'
    have hunf : rk4Pass0 t h xx0 i (f :: fs) nx
        = (f xx0 t :: (rk4Pass0 t h xx0 (i+1) fs nx').1,
           (rk4Pass0 t h xx0 (i+1) fs nx').2) := rfl
    obtain ⟨ihlen, ihnx, ihd⟩ := ih (i + 1) nx'
    refine ⟨by simp [hunf, ihlen], ?_, ?_⟩
    · exact ihnx
    · intro k hk
      match k with
      | 0 => simp [hunf]
      | k + 1 =>
        have hk' : k < fs.length := by simpa using hk
        have := ihd k hk'
        simp only [hunf, List.getD_cons_succ]
        exact this

theorem rk4Pass3_spec (time : Num) (nx : List Num) :
    ∀ (fs : List Ode),
      (rk4Pass3 time nx fs).length = fs.length ∧
      ∀ k, k < fs.length →
        (rk4Pass3 time nx fs).getD k 0 = (fs.getD k zeroOde) nx time := by
  intro fs
  induction fs with
  | nil => simp [rk4Pass3]
  | cons f fs ih =>
    obtain ⟨ihlen, ihd⟩ := ih
    refine ⟨by simp [rk4Pass3, ihlen], ?_⟩
    intro k hk
    match k with
    | 0 => simp [rk4Pass3]
    | k + 1 =>
      have hk' : k < fs.length := by simpa using hk
      simpa [rk4Pass3] using ihd k hk'

theorem length_rk4dd0 (xx0 : List Num) (t h : Num) (dxdt : List Ode) :
    (rk4dd0 xx0 t h dxdt).length = dxdt.length :=
  (rk4Pass0_spec t h xx0 dxdt 0 (List.replicate xx0.length 0)).1

theorem rk4dd0_getD (xx0 : List Num) (t h : Num) (dxdt : List Ode) (k : Nat)
    (hk : k < dxdt.length) :
    (rk4dd0 xx0 t h dxdt).getD k 0 = (dxdt.getD k zeroOde) xx0 t :=
  (rk4Pass0_spec t h xx0 dxdt 0 (List.replicate xx0.length 0)).2.2 k hk

theorem length_rk4nxA (xx0 : List Num) (t h : Num) (dxdt : List Ode) :
    (rk4nxA xx0 t h dxdt).length = xx0.length := by
  have h2 := (rk4Pass0_spec t h xx0 dxdt 0 (List.replicate xx0.length 0)).2.1
  rw [rk4nxA, h2, length_applyW]
  simp

theorem rk4nxA_getD (xx0 : List Num) (t h : Num) (dxdt : List Ode)
    (hn : dxdt.length = xx0.length) (j : Nat) (hj : j < xx0.length) :
    (rk4nxA xx0 t h dxdt).getD j 0 =
      xx0.getD j 0 + h / 2 * (rk4dd0 xx0 t h dxdt).getD j 0 := by
  have h2 := (rk4Pass0_spec t h xx0 dxdt 0 (List.replicate xx0.length 0)).2.1
  rw [rk4nxA, h2, getD_applyW]
  rw [if_pos]
  · simp [rk4dd0]
  · refine ⟨Nat.zero_le j, ?_, by simpa using hj⟩
    have := length_rk4dd0 xx0 t h dxdt
    simp only [Nat.zero_add]
    rw [show (rk4Pass0 t h xx0 0 dxdt (List.replicate xx0.length 0)).1.length
        = dxdt.length from this]
    omega

theorem length_rk4dd1 (xx0 : List Num) (t h : Num) (dxdt : List Ode) :
    (rk4dd1 xx0 t h dxdt).length = dxdt.length :=
  (rk4Pass_spec (t + h / 2) (h / 2) xx0 dxdt 0 (rk4nxA xx0 t h dxdt)).1

theorem rk4dd1_getD (xx0 : List Num) (t h : Num) (dxdt : List Ode) (k : Nat)
    (hk : k < dxdt.length) :
    (rk4dd1 xx0 t h dxdt).getD k 0 =
      (dxdt.getD k zeroOde) (rk4trial1 xx0 t h dxdt k) (t + h / 2) :=
  (rk4Pass_spec (t + h / 2) (h / 2) xx0 dxdt 0 (rk4nxA xx0 t h dxdt)).2.2 k hk

theorem length_rk4nxB (xx0 : List Num) (t h : Num) (dxdt : List Ode) :
    (rk4nxB xx0 t h dxdt).length = xx0.length := by
  have h2 := (rk4Pass_spec (t + h / 2) (h / 2) xx0 dxdt 0 (rk4nxA xx0 t h dxdt)).2.1
  rw [rk4nxB, h2, length_applyW, length_rk4nxA]

theorem rk4nxB_getD (xx0 : List Num) (t h : Num) (dxdt : List Ode)
    (hn : dxdt.length = xx0.length) (j : Nat) (hj : j < xx0.length) :
    (rk4nxB xx0 t h dxdt).getD j 0 =
      xx0.getD j 0 + h / 2 * (rk4dd1 xx0 t h dxdt).getD j 0 := by
  have h2 := (rk4Pass_spec (t + h / 2) (h / 2) xx0 dxdt 0 (rk4nxA xx0 t h dxdt)).2.1
  rw [rk4nxB, h2, getD_applyW]
  rw [if_pos]
  · simp [rk4dd1]
  · refine ⟨Nat.zero_le j, ?_, ?_⟩
    · have := length_rk4dd1 xx0 t h dxdt
      rw [rk4dd1] at this
      omega
    · rw [length_rk4nxA]; exact hj

theorem length_rk4dd2 (xx0 : List Num) (t h : Num) (dxdt : List Ode) :
    (rk4dd2 xx0 t h dxdt).length = dxdt.length :=
  (rk4Pass_spec (t + h / 2) h xx0 dxdt 0 (rk4nxB xx0 t h dxdt)).1

theorem rk4dd2_getD (xx0 : List Num) (t h : Num) (dxdt : List Ode) (k : Nat)
    (hk : k < dxdt.length) :
    (rk4dd2 xx0 t h dxdt).getD k 0 =
      (dxdt.getD k zeroOde) (rk4trial2 xx0 t h dxdt k) (t + h / 2) :=
  (rk4Pass_spec (t + h / 2) h xx0 dxdt 0 (rk4nxB xx0 t h dxdt)).2.2 k hk

theorem length_rk4nxC (xx0 : List Num) (t h : Num) (dxdt : List Ode) :
    (rk4nxC xx0 t h dxdt).length = xx0.length := by
  have h2 := (rk4Pass_spec (t + h / 2) h xx0 dxdt 0 (rk4nxB xx0 t h dxdt)).2.1
  rw [rk4nxC, h2, length_applyW, length_rk4nxB]

theorem rk4nxC_getD (xx0 : List Num) (t h : Num) (dxdt : List Ode)
    (hn : dxdt.length = xx0.length) (j : Nat) (hj : j < xx0.length) :
    (rk4nxC xx0 t h dxdt).getD j 0 =
      xx0.getD j 0 + h * (rk4dd2 xx0 t h dxdt).getD j 0 := by
  have h2 := (rk4Pass_spec (t + h / 2) h xx0 dxdt 0 (rk4nxB xx0 t h dxdt)).2.1
  rw [rk4nxC, h2, getD_applyW]
  rw [if_pos]
  · simp [rk4dd2]
  · refine ⟨Nat.zero_le j, ?_, ?_⟩
    · have := length_rk4dd2 xx0 t h dxdt
      rw [rk4dd2] at this
      omega
    · rw [length_rk4nxB]; exact hj

theorem length_rk4dd3 (xx0 : List Num) (t h : Num) (dxdt : List Ode) :
    (rk4dd3 xx0 t h dxdt).length = dxdt.length :=
  (rk4Pass3_spec (t + h) (rk4nxC xx0 t h dxdt) dxdt).1

theorem rk4dd3_getD (xx0 : List Num) (t h : Num) (dxdt : List Ode) (k : Nat)
    (hk : k < dxdt.length) :
    (rk4dd3 xx0 t h dxdt).getD k 0 =
      (dxdt.getD k zeroOde) (rk4nxC xx0 t h dxdt) (t + h) :=
  (rk4Pass3_spec (t + h) (rk4nxC xx0 t h dxdt) dxdt).2 k hk

theorem rk4trial1_getD (xx0 : List Num) (t h : Num) (dxdt : List Ode)
    (hn : dxdt.length = xx0.length) (i j : Nat) (hj : j < xx0.length) :
    (rk4trial1 xx0 t h dxdt i).getD j 0 =
      xx0.getD j 0 + h / 2 *
        (if j < i then (rk4dd1 xx0 t h dxdt).getD j 0
         else (rk4dd0 xx0 t h dxdt).getD j 0) := by
  rw [rk4trial1, getD_applyW]
  have hlen1 : (rk4dd1 xx0 t h dxdt).length = xx0.length := by
    rw [length_rk4dd1, hn]
  have hlenA : (rk4nxA xx0 t h dxdt).length = xx0.length := length_rk4nxA xx0 t h dxdt
  by_cases hji : j < i
  · rw [if_pos ⟨Nat.zero_le j, by simp [List.length_take, hlen1]; omega, by omega⟩]
    rw [if_pos hji]
    have htake : ((rk4dd1 xx0 t h dxdt).take i).getD j 0 = (rk4dd1 xx0 t h dxdt).getD j 0 := by
      simp [List.getD_eq_getElem?_getD, List.getElem?_take, hji]
    rw [Nat.sub_zero, htake]
  · rw [if_neg (by simp [List.length_take]; omega)]
    rw [if_neg hji]
    exact rk4nxA_getD xx0 t h dxdt hn j hj

theorem rk4trial2_getD (xx0 : List Num) (t h : Num) (dxdt : List Ode)
    (hn : dxdt.length = xx0.length) (i j : Nat) (hj : j < xx0.length) :
    (rk4trial2 xx0 t h dxdt i).getD j 0 =
      xx0.getD j 0 +
        (if j < i then h * (rk4dd2 xx0 t h dxdt).getD j 0
         else h / 2 * (rk4dd1 xx0 t h dxdt).getD j 0) := by
  rw [rk4trial2, getD_applyW]
  have hlen2 : (rk4dd2 xx0 t h dxdt).length = xx0.length := by
    rw [length_rk4dd2, hn]
  have hlenB : (rk4nxB xx0 t h dxdt).length = xx0.length := length_rk4nxB xx0 t h dxdt
  by_cases hji : j < i
  · rw [if_pos ⟨Nat.zero_le j, by simp [List.length_take, hlen2]; omega, by omega⟩]
    rw [if_pos hji]
    have htake : ((rk4dd2 xx0 t h dxdt).take i).getD j 0 = (rk4dd2 xx0 t h dxdt).getD j 0 := by
      simp [List.getD_eq_getElem?_getD, List.getElem?_take, hji]
    rw [Nat.sub_zero, htake]
  · rw [if_neg (by simp [List.length_take]; omega)]
    rw [if_neg hji]
    exact rk4nxB_getD xx0 t h dxdt hn j hj

/-! ### Claim C3: the four stages of Rk4 -/

/-- C3: `Rk4` performs four derivative evaluation stages — `dd0` at time
`t` on the input state, `dd1` at `t + h/2` on a trial state built from
`dd0` (updated in place during the stage, see C9), `dd2` at `t + h/2` on
a trial state built from `dd1`, `dd3` at `t + h` on the trial state built
from `dd2` — and returns `increment[i] = h/6 * (dd0[i] + 2*dd1[i] +
2*dd2[i] + dd3[i])` for every component `i`. -/
theorem rk4_c3_stages (xx0 : List Num) (t h : Num) (dxdt : List Ode)
    (hn : dxdt.length = xx0.length) :
    (Rk4 xx0 t h dxdt).length = xx0.length ∧
    ∀ i, i < xx0.length →
      (Rk4 xx0 t h dxdt).getD i 0 =
        h / 6 * ((rk4dd0 xx0 t h dxdt).getD i 0 + 2 * (rk4dd1 xx0 t h dxdt).getD i 0 +
          2 * (rk4dd2 xx0 t h dxdt).getD i 0 + (rk4dd3 xx0 t h dxdt).getD i 0) ∧
      (rk4dd0 xx0 t h dxdt).getD i 0 = (dxdt.getD i zeroOde) xx0 t ∧
      (rk4dd1 xx0 t h dxdt).getD i 0
        = (dxdt.getD i zeroOde) (rk4trial1 xx0 t h dxdt i) (t + h / 2) ∧
      (rk4dd2 xx0 t h dxdt).getD i 0
        = (dxdt.getD i zeroOde) (rk4trial2 xx0 t h dxdt i) (t + h / 2) ∧
      (rk4dd3 xx0 t h dxdt).getD i 0
        = (dxdt.getD i zeroOde) (rk4nxC xx0 t h dxdt) (t + h) := by
  constructor
  · simp [Rk4]
  · intro i hi
    have hi' : i < dxdt.length := by omega
    refine ⟨?_, rk4dd0_getD _ _ _ _ i hi', rk4dd1_getD _ _ _ _ i hi',
      rk4dd2_getD _ _ _ _ i hi', rk4dd3_getD _ _ _ _ i hi'⟩
    rw [Rk4, getD_range_map, if_pos hi]

/-- Witness for C3 on the one-equation system dx/dt = t at t0 = 0, h = 1. -/
theorem rk4_c3_stages_witness :
    (Rk4 [(0 : Num)] 0 1 [fun _ τ => τ]).getD 0 0 =
      1 / 6 * ((rk4dd0 [(0 : Num)] 0 1 [fun _ τ => τ]).getD 0 0 +
        2 * (rk4dd1 [(0 : Num)] 0 1 [fun _ τ => τ]).getD 0 0 +
        2 * (rk4dd2 [(0 : Num)] 0 1 [fun _ τ => τ]).getD 0 0 +
        (rk4dd3 [(0 : Num)] 0 1 [fun _ τ => τ]).getD 0 0) :=
  ((rk4_c3_stages [(0 : Num)] 0 1 [fun _ τ => τ] (by simp)).2 0 (by simp)).1

/-! ### Claim C9: the trial states seen by the stage loops -/

/-- C9 counterexample: stage 3 of `Rk4` is NOT analogous to stages 1 and 2.
The final loop performs no writes, so the trial state passed to every
equation of stage 3 is the same uniform vector `xx0[j] + h*dd2[j]`; in
particular, on the two-equation system `f0 = fun _ τ => τ`,
`f1 = fun xs _ => xs[0]` with `xx0 = [0,0]`, `t = 0`, `h = 1`, the
component `j = 0` of the trial state seen while computing `dd3[1]` holds
the uniform value `xx0[0] + h*dd2[0] = 1/2` and not the would-be mixed
value `xx0[0] + h*dd3[0] = 1`. -/
theorem rk4_c9_counterexample :
    (rk4nxC [(0 : Num), 0] 0 1 [fun _ τ => τ, fun xs _ => xs.getD 0 0]).getD 0 0 =
      ([(0 : Num), 0]).getD 0 0 +
        1 * (rk4dd2 [(0 : Num), 0] 0 1 [fun _ τ => τ, fun xs _ => xs.getD 0 0]).getD 0 0 ∧
    (rk4nxC [(0 : Num), 0] 0 1 [fun _ τ => τ, fun xs _ => xs.getD 0 0]).getD 0 0 ≠
      ([(0 : Num), 0]).getD 0 0 +
        1 * (rk4dd3 [(0 : Num), 0] 0 1 [fun _ τ => τ, fun xs _ => xs.getD 0 0]).getD 0 0 := by
  norm_num [rk4nxC, rk4nxB, rk4nxA, rk4dd2, rk4dd3, rk4Pass, rk4Pass0, rk4Pass3,
    List.set]

/-- C9 (amended): the trial-state vector passed to equation `i` at stages
1 and 2 is mixed — when `dd1[i]` is evaluated, components `j < i` hold
`xx0[j] + (h/2)*dd1[j]` while components `j >= i` still hold
`xx0[j] + (h/2)*dd0[j]`; when `dd2[i]` is evaluated, components `j < i`
hold `xx0[j] + h*dd2[j]` while components `j >= i` still hold
`xx0[j] + (h/2)*dd1[j]`.  Stage 3 is NOT mixed: its loop performs no
writes, so every equation of stage 3 sees the same uniform trial state
`xx0[j] + h*dd2[j]`.  At stages 1 and 2, equation 0 (hence every equation
of a single-equation system) sees a uniform trial state built purely from
the previous stage's derivative. -/
theorem rk4_c9_amended (xx0 : List Num) (t h : Num) (dxdt : List Ode)
    (hn : dxdt.length = xx0.length) :
    (∀ i, ∀ j, j < xx0.length →
      (rk4trial1 xx0 t h dxdt i).getD j 0 =
        xx0.getD j 0 + h / 2 * (if j < i then (rk4dd1 xx0 t h dxdt).getD j 0
          else (rk4dd0 xx0 t h dxdt).getD j 0)) ∧
    (∀ i, ∀ j, j < xx0.length →
      (rk4trial2 xx0 t h dxdt i).getD j 0 =
        xx0.getD j 0 + (if j < i then h * (rk4dd2 xx0 t h dxdt).getD j 0
          else h / 2 * (rk4dd1 xx0 t h dxdt).getD j 0)) ∧
    (∀ i, i < dxdt.length →
      (rk4dd3 xx0 t h dxdt).getD i 0
        = (dxdt.getD i zeroOde) (rk4nxC xx0 t h dxdt) (t + h)) ∧
    (∀ j, j < xx0.length →
      (rk4nxC xx0 t h dxdt).getD j 0 = xx0.getD j 0 + h * (rk4dd2 xx0 t h dxdt).getD j 0) := by
  refine ⟨fun i j hj => rk4trial1_getD xx0 t h dxdt hn i j hj,
    fun i j hj => rk4trial2_getD xx0 t h dxdt hn i j hj,
    fun i hi => rk4dd3_getD xx0 t h dxdt i hi,
    fun j hj => rk4nxC_getD xx0 t h dxdt hn j hj⟩

/-- Witness for the amended C9 on a concrete two-equation system. -/
theorem rk4_c9_amended_witness :
    (rk4trial1 [(0 : Num), 0] 0 1 [fun _ τ => τ, fun xs _ => xs.getD 0 0] 1).getD 0 0 =
      ([(0 : Num), 0]).getD 0 0 +
        1 / 2 * (rk4dd1 [(0 : Num), 0] 0 1 [fun _ τ => τ, fun xs _ => xs.getD 0 0]).getD 0 0 := by
  have hmain := (rk4_c9_amended [(0 : Num), 0] 0 1
    [fun _ τ => τ, fun xs _ => xs.getD 0 0] (by simp)).1 1 0 (by simp)
  simpa using hmain

/-! ### Properties of the quality estimator -/

theorem qstep_eq_abs (full half h : Num) :
    (if full - half ≥ 0 then (full - half) / h else -(full - half) / h)
      = |full - half| / h := by
  split
  · rw [abs_of_nonneg (by assumption)]
  · rw [abs_of_neg (lt_of_not_ge (by assumption))]

theorem qstep_max (c q : Num) : (if c > q then c else q) = max q c := by
  rcases le_or_lt c q with hcq | hcq
  · rw [if_neg (not_lt.mpr hcq), max_eq_left hcq]
  · rw [if_pos hcq, max_eq_right (le_of_lt hcq)]

/-- The running maximum of `quality` never decreases below its initial
value, whatever the sign of `h` and whatever the lengths. -/
theorem qualityGo_ge_init (h : Num) :
    ∀ (xF xH : List Num) (q : Num), q ≤ qualityGo h xF xH q := by
  intro xF
  induction xF with
  | nil => intro xH q; exact le_of_eq rfl
  | cons full fs ih =>
    intro xH q
    cases xH with
    | nil => exact le_of_eq rfl
    | cons half hs =>
      have hunf : qualityGo h (full :: fs) (half :: hs) q
          = qualityGo h fs hs (max q (|full - half| / h)) := by
        calc qualityGo h (full :: fs) (half :: hs) q
            = qualityGo h fs hs
                (if (if full - half ≥ 0 then (full - half) / h else -(full - half) / h) > q
                 then (if full - half ≥ 0 then (full - half) / h else -(full - half) / h)
                 else q) := rfl
          _ = qualityGo h fs hs (max q (|full - half| / h)) := by
              rw [qstep_eq_abs, qstep_max]
      rw [hunf]
      exact le_trans (le_max_left q _) (ih hs _)

/-- Characterisation of the accumulator loop of `quality` on equal-length
slices: the result bounds every component value `|xF[i] - xH[i]| / h`
from above, and is either the initial accumulator or one of the component
values. -/
theorem qualityGo_spec (h : Num) :
    ∀ (xF xH : List Num) (q : Num), xF.length = xH.length →
      (∀ i, i < xF.length →
        |xF.getD i 0 - xH.getD i 0| / h ≤ qualityGo h xF xH q) ∧
      (qualityGo h xF xH q = q ∨
        ∃ i, i < xF.length ∧ qualityGo h xF xH q = |xF.getD i 0 - xH.getD i 0| / h) := by
  intro xF
  induction xF with
  | nil =>
    intro xH q hlen
    exact ⟨by simp, Or.inl rfl⟩
  | cons full fs ih =>
    intro xH q hlen
    cases xH with
    | nil => simp at hlen
    | cons half hs =>
      have hlen' : fs.length = hs.length := by simpa using hlen
      have hunf : qualityGo h (full :: fs) (half :: hs) q
          = qualityGo h fs hs (max q (|full - half| / h)) := by
        calc qualityGo h (full :: fs) (half :: hs) q
            = qualityGo h fs hs
                (if (if full - half ≥ 0 then (full - half) / h else -(full - half) / h) > q
                 then (if full - half ≥ 0 then (full - half) / h else -(full - half) / h)
                 else q) := rfl
          _ = qualityGo h fs hs (max q (|full - half| / h)) := by
              rw [qstep_eq_abs, qstep_max]
      obtain ⟨ihb, ihe⟩ := ih hs (max q (|full - half| / h)) hlen'
      constructor
      · intro i hi
        match i with
        | 0 =>
          rw [hunf]
          simp only [List.getD_cons_zero]
          exact le_trans (le_max_right q _) (qualityGo_ge_init h fs hs _)
        | i + 1 =>
          rw [hunf]
          simpa using ihb i (by simpa using hi)
      · rw [hunf]
        rcases ihe with heq | ⟨i, hi, heq⟩
        · rcases max_choice q (|full - half| / h) with hm | hm
          · exact Or.inl (heq.trans hm)
          · refine Or.inr ⟨0, by simp, ?_⟩
            simpa using heq.trans hm
        · exact Or.inr ⟨i + 1, by simpa using hi, by simpa using heq⟩

/-! ### Claim C2: the quality estimator -/

/-- C2 counterexample: at the negative step size `h = -1` and the
one-component vectors `x_full = [1]`, `x_half = [0]`, the maximum over
components of `|x_full[i] - x_half[i]| / h` is `|1 - 0| / (-1) = -1`, but
`quality` returns 0 (its running maximum starts at 0 and a negative
component value never replaces it).  So the claimed identity fails for
step sizes that are not positive. -/
theorem quality_c2_counterexample :
    quality [(1 : Num)] [0] (-1) ≠ |(1 : Num) - 0| / (-1) := by
  norm_num [quality, qualityGo]

/-- C2 (amended): for every pair of equal-length vectors and every step
size `h > 0`, `quality(x_full, x_half, h)` is the maximum over components
`i` of `|x_full[i] - x_half[i]| / h` (an upper bound of all component
values, attained at some component when the vectors are nonempty); for
every input whatsoever the returned scalar is `>= 0`, and for an empty
vector it is 0. -/
theorem quality_c2_amended (xF xH : List Num) (h : Num) :
    0 ≤ quality xF xH h ∧
    (xF = [] → quality xF xH h = 0) ∧
    (xF.length = xH.length → 0 < h →
      (∀ i, i < xF.length → |xF.getD i 0 - xH.getD i 0| / h ≤ quality xF xH h) ∧
      (xF ≠ [] → ∃ i, i < xF.length ∧
        quality xF xH h = |xF.getD i 0 - xH.getD i 0| / h)) := by
  refine ⟨qualityGo_ge_init h xF xH 0, ?_, ?_⟩
  · intro he; subst he; rfl
  · intro hlen hpos
    obtain ⟨hb, he⟩ := qualityGo_spec h xF xH 0 hlen
    refine ⟨hb, ?_⟩
    intro hne
    rcases he with h0 | ⟨i, hi, heq⟩
    · have hlen0 : 0 < xF.length := List.length_pos.mpr hne
      refine ⟨0, hlen0, ?_⟩
      have hub := hb 0 hlen0
      have hnn : 0 ≤ |xF.getD 0 0 - xH.getD 0 0| / h :=
        div_nonneg (abs_nonneg _) (le_of_lt hpos)
      have hq0 : quality xF xH h = 0 := h0
      rw [hq0]
      rw [h0] at hub
      linarith
    · exact ⟨i, hi, heq⟩

/-- Witness for the amended C2 on concrete vectors and step size 2. -/
theorem quality_c2_amended_witness :
    ∃ i, i < ([(1 : Num), 3]).length ∧
      quality [(1 : Num), 3] [0, 7] 2
        = |([(1 : Num), 3]).getD i 0 - ([(0 : Num), 7]).getD i 0| / 2 :=
  ((quality_c2_amended [(1 : Num), 3] [0, 7] 2).2.2 (by simp) (by norm_num)).2 (by simp)

/-! ### Claim C1: the decision priority of the inner retry loop -/

/-- C1: every attempt of the inner retry loop computes
`q = quality(x_full, x_half, h)` (here `attemptQ`) and records the
attempt's `h` as the used step `H` (first component of the result), then
decides in priority order: below `hmin` accept with `h` unchanged
(regardless of `q`); else `q > 0.005` halve and retry (or, with no retry
left, exit with the halved `h`); else `q < 0.0005` accept and double `h`
for the next outer iteration while `H` stays the pre-doubling `h`; else
accept with `h` unchanged.  In every case the outer iteration then takes
the snapshot at time `T`, advances `T` by `H`, and adds the last computed
full-step increment to the live state. -/
theorem adaptive_c1_inner_decision (method : Integrator) (dxdt : List Ode)
    (xx : List Num) (T hmin : Num) (a : Nat) (h : Num) :
    (h < hmin →
      innerLoop method dxdt xx T hmin a h = (h, h, kkFullAt method dxdt xx T h)) ∧
    (¬ h < hmin → attemptQ method dxdt xx T h > 0.005 →
      innerLoop method dxdt xx T hmin (a + 1) h
        = innerLoop method dxdt xx T hmin a (h / 2)) ∧
    (¬ h < hmin → attemptQ method dxdt xx T h > 0.005 →
      innerLoop method dxdt xx T hmin 0 h = (h, h / 2, kkFullAt method dxdt xx T h)) ∧
    (¬ h < hmin → ¬ attemptQ method dxdt xx T h > 0.005 →
        attemptQ method dxdt xx T h < 0.0005 →
      innerLoop method dxdt xx T hmin a h = (h, h * 2, kkFullAt method dxdt xx T h)) ∧
    (¬ h < hmin → ¬ attemptQ method dxdt xx T h > 0.005 →
        ¬ attemptQ method dxdt xx T h < 0.0005 →
      innerLoop method dxdt xx T hmin a h = (h, h, kkFullAt method dxdt xx T h)) ∧
    (∀ tmax fuel, T ≤ tmax →
      adaptiveLoop method dxdt tmax hmin (fuel + 1) xx T h =
        (⟨T, xx⟩ :: (adaptiveLoop method dxdt tmax hmin fuel
            (addInc xx (innerLoop method dxdt xx T hmin 4 h).2.2)
            (T + (innerLoop method dxdt xx T hmin 4 h).1)
            (innerLoop method dxdt xx T hmin 4 h).2.1).1,
         (adaptiveLoop method dxdt tmax hmin fuel
            (addInc xx (innerLoop method dxdt xx T hmin 4 h).2.2)
            (T + (innerLoop method dxdt xx T hmin 4 h).1)
            (innerLoop method dxdt xx T hmin 4 h).2.1).2)) := by
  refine ⟨?_, ?_, ?_, ?_, ?_, ?_⟩
  · intro hlt
    cases a with
    | zero => rw [innerLoop, if_pos hlt]
    | succ a' => rw [innerLoop, if_pos hlt]
  · intro h1 h2
    rw [innerLoop, if_neg h1, if_pos h2]
  · intro h1 h2
    rw [innerLoop, if_neg h1, if_pos h2]
  · intro h1 h2 h3
    cases a with
    | zero => rw [innerLoop, if_neg h1, if_neg h2, if_pos h3]
    | succ a' => rw [innerLoop, if_neg h1, if_neg h2, if_pos h3]
  · intro h1 h2 h3
    cases a with
    | zero => rw [innerLoop, if_neg h1, if_neg h2, if_neg h3]
    | succ a' => rw [innerLoop, if_neg h1, if_neg h2, if_neg h3]
  · intro tmax fuel hT
    rw [adaptiveLoop, if_pos hT]

/-- Witness for C1 on the constant-increment method `[1]` from state
`[0]`, where the attempt quality at `h = 400` is `1/400`, inside the
acceptance band `[0.0005, 0.005]`. -/
theorem adaptive_c1_inner_decision_witness :
    innerLoop (fun _ _ _ _ => [1]) [] [(0 : Num)] 0 0 4 400
      = (400, 400, kkFullAt (fun _ _ _ _ => [1]) [] [(0 : Num)] 0 400) := by
  have hq : attemptQ (fun _ _ _ _ => [1]) [] [(0 : Num)] 0 400 = 1 / 400 := by
    norm_num [attemptQ, xFullAt, xHalfAt, kkFullAt, fullTmp, addInc, quality, qualityGo]
  exact (adaptive_c1_inner_decision (fun _ _ _ _ => [1]) [] [(0 : Num)] 0 0 4 400).2.2.2.2.1
    (by norm_num) (by rw [hq]; norm_num) (by rw [hq]; norm_num)

/-! ### Claim C5: exhausting the five attempts -/

theorem innerCount_le (method : Integrator) (dxdt : List Ode) (xx : List Num)
    (T hmin : Num) : ∀ (a : Nat) (h : Num), innerCount method dxdt xx T hmin a h ≤ a + 1 := by
  intro a
  induction a with
  | zero =>
    intro h
    rw [innerCount]
    repeat' split
    all_goals omega
  | succ a ih =>
    intro h
    rw [innerCount]
    split
    · omega
    · split
      · have := ih (h / 2)
        omega
      · split <;> omega

/-- When every attempt is of bad quality and never below `hmin`, the
inner loop burns all its retries, halving each time, and exits from the
last attempt with `H` the last attempt's step and `h` halved once more. -/
theorem innerLoop_all_high (method : Integrator) (dxdt : List Ode) (xx : List Num)
    (T hmin : Num) :
    ∀ (a : Nat) (h : Num),
      (∀ k, k ≤ a → ¬ h / 2 ^ k < hmin) →
      (∀ k, k ≤ a → attemptQ method dxdt xx T (h / 2 ^ k) > 0.005) →
      innerLoop method dxdt xx T hmin a h
        = (h / 2 ^ a, h / 2 ^ a / 2, kkFullAt method dxdt xx T (h / 2 ^ a)) ∧
      innerCount method dxdt xx T hmin a h = a + 1 := by
  intro a
  induction a with
  | zero =>
    intro h hm hq
    have hm0 := hm 0 (le_refl 0)
    have hq0 := hq 0 (le_refl 0)
    rw [show h / 2 ^ 0 = h by norm_num] at hm0 hq0
    constructor
    · rw [innerLoop, if_neg hm0, if_pos hq0]
      norm_num
    · rw [innerCount, if_neg hm0, if_pos hq0]
  | succ a ih =>
    intro h hm hq
    have hm0 := hm 0 (Nat.zero_le _)
    have hq0 := hq 0 (Nat.zero_le _)
    rw [show h / 2 ^ 0 = h by norm_num] at hm0 hq0
    have hstep : ∀ k, h / 2 / 2 ^ k = h / 2 ^ (k + 1) := by
      intro k
      rw [div_div, pow_succ, mul_comm]
    have hm' : ∀ k, k ≤ a → ¬ (h / 2) / 2 ^ k < hmin := by
      intro k hk
      rw [hstep k]
      exact hm (k + 1) (by omega)
    have hq' : ∀ k, k ≤ a → attemptQ method dxdt xx T ((h / 2) / 2 ^ k) > 0.005 := by
      intro k hk
      rw [hstep k]
      exact hq (k + 1) (by omega)
    obtain ⟨ihL, ihC⟩ := ih (h / 2) hm' hq'
    constructor
    · rw [innerLoop, if_neg hm0, if_pos hq0]
      rw [ihL, hstep a]
    · rw [innerCount, if_neg hm0, if_pos hq0]
      rw [ihC]
      omega

/-- C5: the inner retry loop runs at most 5 attempts per outer iteration;
when all 5 attempts (at steps `h, h/2, h/4, h/8, h/16`) yield
`q > 0.005` and the step is never below `hmin`, no error is raised: the
loop exits after exactly 5 attempts, the 5th attempt's step `h/16` is
recorded as `H` and its full-step increment is the one kept, so the outer
iteration accepts it — time advances by `h/16` and the increment of the
5th attempt is applied to the live state (the next outer iteration starts
at `h/32`). -/
theorem adaptive_c5_five_attempts (method : Integrator) (dxdt : List Ode)
    (xx : List Num) (T hmin : Num) (h : Num)
    (hm : ∀ k, k ≤ 4 → ¬ h / 2 ^ k < hmin)
    (hq : ∀ k, k ≤ 4 → attemptQ method dxdt xx T (h / 2 ^ k) > 0.005) :
    (∀ h', innerCount method dxdt xx T hmin 4 h' ≤ 5) ∧
    innerCount method dxdt xx T hmin 4 h = 5 ∧
    innerLoop method dxdt xx T hmin 4 h
      = (h / 16, h / 32, kkFullAt method dxdt xx T (h / 16)) ∧
    (∀ tmax fuel, T ≤ tmax →
      adaptiveLoop method dxdt tmax hmin (fuel + 1) xx T h =
        (⟨T, xx⟩ :: (adaptiveLoop method dxdt tmax hmin fuel
            (addInc xx (kkFullAt method dxdt xx T (h / 16))) (T + h / 16) (h / 32)).1,
         (adaptiveLoop method dxdt tmax hmin fuel
            (addInc xx (kkFullAt method dxdt xx T (h / 16))) (T + h / 16) (h / 32)).2)) := by
  obtain ⟨hL, hC⟩ := innerLoop_all_high method dxdt xx T hmin 4 h hm hq
  have h16 : h / 2 ^ 4 = h / 16 := by norm_num
  have h32 : h / 2 ^ 4 / 2 = h / 32 := by
    rw [div_div]
    norm_num
  rw [h32, h16] at hL
  refine ⟨innerCount_le method dxdt xx T hmin 4, hC, hL, ?_⟩
  intro tmax fuel hT
  rw [adaptiveLoop, if_pos hT, hL]

/-- Witness for C5: the constant-increment method `[1]` from state `[0]`
has attempt quality `1/h`, which exceeds 0.005 at every one of the five
attempt steps `1, 1/2, 1/4, 1/8, 1/16`, all of which stay above
`hmin = 1/100`. -/
theorem adaptive_c5_five_attempts_witness :
    innerCount (fun _ _ _ _ => [1]) [] [(0 : Num)] 0 (1 / 100) 4 1 = 5 ∧
    innerLoop (fun _ _ _ _ => [1]) [] [(0 : Num)] 0 (1 / 100) 4 1
      = (1 / 16, 1 / 32, kkFullAt (fun _ _ _ _ => [1]) [] [(0 : Num)] 0 (1 / 16)) := by
  have hqval : ∀ h' : Num, 0 < h' →
      attemptQ (fun _ _ _ _ => [1]) [] [(0 : Num)] 0 h' = 1 / h' := by
    intro h' hp
    have h1 : (0 : Num) < 1 / h' := by positivity
    norm_num [attemptQ, xFullAt, xHalfAt, kkFullAt, fullTmp, addInc, quality, qualityGo, h1]
    intro hle
    linarith
  have hmain := adaptive_c5_five_attempts (fun _ _ _ _ => [1]) [] [(0 : Num)] 0 (1 / 100) 1
    (by
      intro k hk
      interval_cases k <;> norm_num)
    (by
      intro k hk
      rw [hqval (1 / 2 ^ k) (by positivity)]
      interval_cases k <;> norm_num)
  exact ⟨hmain.2.1, hmain.2.2.1⟩

/-! ### Claim C4: snapshot times of FixedStep -/

/-- Once the current time exceeds `tmax`, the fixed-step loop records
nothing and leaves the state alone, whatever the fuel. -/
theorem fixedLoop_stop (method : Integrator) (dxdt : List Ode) (tmax h : Num)
    (xx : List Num) (T : Num) (hT : ¬ T ≤ tmax) :
    ∀ fuel, fixedLoop method dxdt tmax h fuel xx T = ([], xx) := by
  intro fuel
  cases fuel with
  | zero => rfl
  | succ fuel => rw [fixedLoop, if_neg hT]

/-- Snapshot times of the fixed-step loop over the exactly divisible
window `[T, T + k*h]`. -/
theorem fixedLoop_times (method : Integrator) (dxdt : List Ode) (h : Num) (hpos : 0 < h) :
    ∀ (k fuel : Nat) (xx : List Num) (T : Num), k + 1 ≤ fuel →
      ((fixedLoop method dxdt (T + (k : Num) * h) h fuel xx T).1).map Result.t
        = (List.range (k + 1)).map (fun i : Nat => T + (i : Num) * h) := by
  intro k
  induction k with
  | zero =>
    intro fuel xx T hfuel
    obtain ⟨f, rfl⟩ : ∃ f, fuel = f + 1 := ⟨fuel - 1, by omega⟩
    have hT : T ≤ T + ((0 : Nat) : Num) * h := by push_cast; linarith
    have hstop : ¬ T + h ≤ T + ((0 : Nat) : Num) * h := by push_cast; linarith
    rw [fixedLoop, if_pos hT]
    have hrec := fixedLoop_stop method dxdt (T + ((0 : Nat) : Num) * h) h
      (addInc xx (method xx T h dxdt)) (T + h) hstop f
    simp at hrec
    simp [hrec, List.range_succ]
  | succ k ih =>
    intro fuel xx T hfuel
    obtain ⟨f, rfl⟩ : ∃ f, fuel = f + 1 := ⟨fuel - 1, by omega⟩
    have hT : T ≤ T + ((k + 1 : Nat) : Num) * h := by
      have hk1 : (0 : Num) < ((k + 1 : Nat) : Num) := by positivity
      nlinarith
    have htmax : T + ((k + 1 : Nat) : Num) * h = (T + h) + (k : Num) * h := by
      push_cast; ring
    have htail : ∀ i ∈ List.range (k + 1),
        ((fun i : Nat => T + (i : Num) * h) ∘ Nat.succ) i = T + h + (i : Num) * h := by
      intro i _
      show T + ((i + 1 : Nat) : Num) * h = T + h + (i : Num) * h
      push_cast; ring
    rw [fixedLoop, if_pos hT, htmax]
    have hrec := ih f (addInc xx (method xx T h dxdt)) (T + h) (by omega)
    simp only [hrec, List.map_cons]
    rw [show List.range (k + 1 + 1) = 0 :: List.map Nat.succ (List.range (k + 1)) from
      List.range_succ_eq_map (k + 1)]
    rw [List.map_cons, List.map_map]
    rw [List.map_congr_left htail]
    simp

/-- C4: for `h > 0` and `tmax = t0 + k*h` (exact divisibility) and enough
fuel for the Go loop to finish, `FixedStep` returns exactly
`floor((tmax - t0)/h) + 1 = k + 1` snapshots at the strictly increasing
times `t0, t0 + h, ..., tmax`, consecutive times differing by exactly
`h`. -/
theorem fixed_c4_snapshot_times (method : Integrator) (dxdt : List Ode) (xx : List Num)
    (t0 tmax h : Num) (k fuel : Nat) (hpos : 0 < h)
    (hdiv : tmax = t0 + (k : Num) * h) (hfuel : k + 1 ≤ fuel) :
    ((FixedStep method dxdt xx t0 tmax h fuel).1).map Result.t
      = (List.range (k + 1)).map (fun i : Nat => t0 + (i : Num) * h) ∧
    ((FixedStep method dxdt xx t0 tmax h fuel).1).length = k + 1 ∧
    ⌊(tmax - t0) / h⌋ = (k : ℤ) ∧
    (∀ i, i + 1 < k + 1 →
      (((FixedStep method dxdt xx t0 tmax h fuel).1).map Result.t).getD i 0
        < (((FixedStep method dxdt xx t0 tmax h fuel).1).map Result.t).getD (i + 1) 0 ∧
      (((FixedStep method dxdt xx t0 tmax h fuel).1).map Result.t).getD (i + 1) 0
        = (((FixedStep method dxdt xx t0 tmax h fuel).1).map Result.t).getD i 0 + h) ∧
    (((FixedStep method dxdt xx t0 tmax h fuel).1).map Result.t).getD k 0 = tmax := by
  subst hdiv
  have hts := fixedLoop_times method dxdt h hpos k fuel xx t0 hfuel
  have hlen : ((FixedStep method dxdt xx t0 (t0 + (k : Num) * h) h fuel).1).length = k + 1 := by
    have := congrArg List.length hts
    simpa [FixedStep] using this
  have hfloor : ⌊(t0 + (k : Num) * h - t0) / h⌋ = (k : ℤ) := by
    have harg : (t0 + (k : Num) * h - t0) / h = (k : Num) := by
      field_simp
    rw [harg, Int.floor_natCast]
  have hgetD : ∀ i, i < k + 1 →
      (((FixedStep method dxdt xx t0 (t0 + (k : Num) * h) h fuel).1).map Result.t).getD i 0
        = t0 + (i : Num) * h := by
    intro i hi
    rw [show ((FixedStep method dxdt xx t0 (t0 + (k : Num) * h) h fuel).1).map Result.t
        = (List.range (k + 1)).map (fun i : Nat => t0 + (i : Num) * h) from hts]
    rw [getD_range_map, if_pos hi]
  refine ⟨hts, hlen, hfloor, ?_, ?_⟩
  · intro i hi
    rw [hgetD i (by omega), hgetD (i + 1) (by omega)]
    constructor
    · have : ((i : Num)) < ((i + 1 : Nat) : Num) := by push_cast; linarith
      nlinarith
    · push_cast; ring
  · rw [hgetD k (by omega)]

/-- Witness for C4: three unit steps from 0 to 2. -/
theorem fixed_c4_snapshot_times_witness :
    ((FixedStep Euler [fun _ _ => (0 : Num)] [0] 0 2 1 3).1).map Result.t
      = (List.range 3).map (fun i : Nat => (0 : Num) + (i : Num) * 1) ∧
    ⌊((2 : Num) - 0) / 1⌋ = (2 : ℤ) := by
  have hmain := fixed_c4_snapshot_times Euler [fun _ _ => (0 : Num)] [0] 0 2 1 2 3
    (by norm_num) (by norm_num) (by norm_num)
  exact ⟨hmain.1, hmain.2.2.1⟩

/-! ### Claim C7: adaptive snapshot times never exceed tmax -/

theorem adaptiveLoop_time_le (method : Integrator) (dxdt : List Ode) (tmax hmin : Num) :
    ∀ (fuel : Nat) (xx : List Num) (T h : Num),
      ∀ r ∈ (adaptiveLoop method dxdt tmax hmin fuel xx T h).1, r.t ≤ tmax := by
  intro fuel
  induction fuel with
  | zero =>
    intro xx T h r hr
    simp [adaptiveLoop] at hr
  | succ fuel ih =>
    intro xx T h r hr
    rw [adaptiveLoop] at hr
    by_cases hT : T ≤ tmax
    · rw [if_pos hT] at hr
      rcases List.mem_cons.mp hr with rfl | hr'
      · exact hT
      · exact ih _ _ _ r hr'
    · rw [if_neg hT] at hr
      simp at hr

/-- C7: every snapshot in the trajectory returned by `AdaptiveStep` has
time at most `tmax`: a row is only recorded at the current time `T` under
the guard `T <= tmax`. -/
theorem adaptive_c7_time_le_tmax (method : Integrator) (dxdt : List Ode) (xx : List Num)
    (t0 tmax hmin h : Num) (fuel : Nat) :
    ∀ r ∈ (AdaptiveStep method dxdt xx t0 tmax hmin h fuel).1, r.t ≤ tmax :=
  fun r hr => adaptiveLoop_time_le method dxdt tmax hmin fuel xx t0 h r hr

/-- Witness for C7: a one-row adaptive run from `t0 = tmax = 0`. -/
theorem adaptive_c7_time_le_tmax_witness :
    (⟨0, [0]⟩ : Result).t ≤ (0 : Num) := by
  apply adaptive_c7_time_le_tmax (fun _ _ _ _ => []) [] [(0 : Num)] 0 0 (1 / 2) 1 1
  norm_num [AdaptiveStep, adaptiveLoop, innerLoop, attemptQ, xFullAt, xHalfAt,
    kkFullAt, fullTmp, addInc, quality, qualityGo]

/-! ### Claim C10: a start time beyond tmax yields an empty run -/

/-- C10: when `t0 > tmax` both steppers return an empty trajectory and
leave the caller's state slice exactly as it was.  The theorem holds for
every method and every equation set, which also expresses that neither is
ever invoked: the result does not depend on them. -/
theorem steppers_c10_empty (method : Integrator) (dxdt : List Ode) (xx : List Num)
    (t0 tmax hmin h : Num) (fuel : Nat) (hgt : tmax < t0) :
    FixedStep method dxdt xx t0 tmax h fuel = ([], xx) ∧
    AdaptiveStep method dxdt xx t0 tmax hmin h fuel = ([], xx) := by
  have hT : ¬ t0 ≤ tmax := not_le.mpr hgt
  refine ⟨?_, ?_⟩
  · cases fuel with
    | zero => rfl
    | succ f => rw [FixedStep, fixedLoop, if_neg hT]
  · cases fuel with
    | zero => rfl
    | succ f => rw [AdaptiveStep, adaptiveLoop, if_neg hT]

/-- Witness for C10 at `t0 = 1 > 0 = tmax`. -/
theorem steppers_c10_empty_witness :
    FixedStep Euler [] [(5 : Num)] 1 0 1 7 = ([], [5]) ∧
    AdaptiveStep Euler [] [(5 : Num)] 1 0 (1 / 100) 1 7 = ([], [5]) :=
  steppers_c10_empty Euler [] [(5 : Num)] 1 0 (1 / 100) 1 7 (by norm_num)

/-! ### Claim C8: a zero right-hand side leaves the state unchanged -/

theorem getD_mem {α : Type _} (l : List α) (i : Nat) (d : α) (hi : i < l.length) :
    l.getD i d ∈ l := by
  rw [List.getD_eq_getElem?_getD, List.getElem?_eq_getElem hi]
  simp [List.getElem_mem hi]

theorem getD_zero_of_len_le (l : List Num) (i : Nat) (hle : l.length ≤ i) :
    l.getD i 0 = 0 := by
  rw [List.getD_eq_getElem?_getD, List.getElem?_len_le hle]
  rfl

theorem Euler_zero (xs : List Num) (t h : Num) (dxdt : List Ode)
    (hz : ∀ f ∈ dxdt, ∀ ys τ, f ys τ = 0) :
    Euler xs t h dxdt = List.replicate xs.length 0 := by
  rw [List.eq_replicate_iff]
  constructor
  · simp [Euler]
  · intro b hb
    simp only [Euler, List.mem_map] at hb
    obtain ⟨d, ⟨i, hi, rfl⟩, rfl⟩ := hb
    by_cases hlt : i < dxdt.length
    · rw [if_pos hlt, hz _ (getD_mem dxdt i zeroOde hlt), mul_zero]
    · rw [if_neg hlt, mul_zero]

theorem MidPoint_zero (xs : List Num) (t h : Num) (dxdt : List Ode)
    (hz : ∀ f ∈ dxdt, ∀ ys τ, f ys τ = 0) :
    MidPoint xs t h dxdt = List.replicate xs.length 0 := by
  rw [List.eq_replicate_iff]
  constructor
  · simp [MidPoint]
  · intro b hb
    simp only [MidPoint, List.mem_map] at hb
    obtain ⟨d, ⟨i, hi, rfl⟩, rfl⟩ := hb
    by_cases hlt : i < dxdt.length
    · rw [if_pos hlt, hz _ (getD_mem dxdt i zeroOde hlt), mul_zero]
    · rw [if_neg hlt, getD_range_map]
      simp [hlt]

theorem Rk4_zero (xs : List Num) (t h : Num) (dxdt : List Ode)
    (hz : ∀ f ∈ dxdt, ∀ ys τ, f ys τ = 0) :
    Rk4 xs t h dxdt = List.replicate xs.length 0 := by
  rw [List.eq_replicate_iff]
  constructor
  · simp [Rk4]
  · intro b hb
    simp only [Rk4, List.mem_map] at hb
    obtain ⟨i, hi, rfl⟩ := hb
    have h0 : (rk4dd0 xs t h dxdt).getD i 0 = 0 := by
      by_cases hlt : i < dxdt.length
      · rw [rk4dd0_getD xs t h dxdt i hlt, hz _ (getD_mem dxdt i zeroOde hlt)]
      · exact getD_zero_of_len_le _ _ (by rw [length_rk4dd0]; omega)
    have h1 : (rk4dd1 xs t h dxdt).getD i 0 = 0 := by
      by_cases hlt : i < dxdt.length
      · rw [rk4dd1_getD xs t h dxdt i hlt, hz _ (getD_mem dxdt i zeroOde hlt)]
      · exact getD_zero_of_len_le _ _ (by rw [length_rk4dd1]; omega)
    have h2 : (rk4dd2 xs t h dxdt).getD i 0 = 0 := by
      by_cases hlt : i < dxdt.length
      · rw [rk4dd2_getD xs t h dxdt i hlt, hz _ (getD_mem dxdt i zeroOde hlt)]
      · exact getD_zero_of_len_le _ _ (by rw [length_rk4dd2]; omega)
    have h3 : (rk4dd3 xs t h dxdt).getD i 0 = 0 := by
      by_cases hlt : i < dxdt.length
      · rw [rk4dd3_getD xs t h dxdt i hlt, hz _ (getD_mem dxdt i zeroOde hlt)]
      · exact getD_zero_of_len_le _ _ (by rw [length_rk4dd3]; omega)
    rw [h0, h1, h2, h3]
    ring

/-- Under a method that always returns a zero increment, the fixed-step
loop keeps the live state constant and every recorded row stores it. -/
theorem fixedLoop_zero_states (method : Integrator) (dxdt : List Ode) (tmax h : Num)
    (hM : ∀ (xs : List Num) (T' h' : Num), method xs T' h' dxdt = List.replicate xs.length 0) :
    ∀ (fuel : Nat) (xx : List Num) (T : Num),
      (∀ r ∈ (fixedLoop method dxdt tmax h fuel xx T).1, r.xx = xx) ∧
      (fixedLoop method dxdt tmax h fuel xx T).2 = xx := by
  intro fuel
  induction fuel with
  | zero =>
    intro xx T
    exact ⟨by simp [fixedLoop], rfl⟩
  | succ fuel ih =>
    intro xx T
    by_cases hT : T ≤ tmax
    · have hstep : addInc xx (method xx T h dxdt) = xx := by
        rw [hM, addInc_replicate_zero]
      rw [fixedLoop, if_pos hT]
      simp only [hstep]
      refine ⟨?_, (ih xx (T + h)).2⟩
      intro r hr
      rcases List.mem_cons.mp hr with rfl | hr'
      · rfl
      · exact (ih xx (T + h)).1 r hr'
    · rw [fixedLoop, if_neg hT]
      exact ⟨by simp, rfl⟩

/-- Under a method that always returns a zero increment, every branch of
the inner retry loop hands back a zero full-step increment. -/
theorem innerLoop_kk_zero (method : Integrator) (dxdt : List Ode) (xx : List Num)
    (T hmin : Num)
    (hM : ∀ (xs : List Num) (T' h' : Num), method xs T' h' dxdt = List.replicate xs.length 0) :
    ∀ (a : Nat) (h : Num),
      (innerLoop method dxdt xx T hmin a h).2.2 = List.replicate xx.length 0 := by
  intro a
  induction a with
  | zero =>
    intro h
    rw [innerLoop]
    repeat' split
    all_goals simp [kkFullAt, hM]
  | succ a ih =>
    intro h
    rw [innerLoop]
    split
    · simp [kkFullAt, hM]
    · split
      · exact ih (h / 2)
      · split
        · simp [kkFullAt, hM]
        · simp [kkFullAt, hM]

/-- Under a method that always returns a zero increment, the adaptive
loop keeps the live state constant and every recorded row stores it. -/
theorem adaptiveLoop_zero_states (method : Integrator) (dxdt : List Ode) (tmax hmin : Num)
    (hM : ∀ (xs : List Num) (T' h' : Num), method xs T' h' dxdt = List.replicate xs.length 0) :
    ∀ (fuel : Nat) (xx : List Num) (T h : Num),
      (∀ r ∈ (adaptiveLoop method dxdt tmax hmin fuel xx T h).1, r.xx = xx) ∧
      (adaptiveLoop method dxdt tmax hmin fuel xx T h).2 = xx := by
  intro fuel
  induction fuel with
  | zero =>
    intro xx T h
    exact ⟨by simp [adaptiveLoop], rfl⟩
  | succ fuel ih =>
    intro xx T h
    by_cases hT : T ≤ tmax
    · have hstep : addInc xx (innerLoop method dxdt xx T hmin 4 h).2.2 = xx := by
        rw [innerLoop_kk_zero method dxdt xx T hmin hM, addInc_replicate_zero]
      rw [adaptiveLoop, if_pos hT]
      simp only [hstep]
      refine ⟨?_, (ih xx _ _).2⟩
      intro r hr
      rcases List.mem_cons.mp hr with rfl | hr'
      · rfl
      · exact (ih xx _ _).1 r hr'
    · rw [adaptiveLoop, if_neg hT]
      exact ⟨by simp, rfl⟩

/-- C8: for each supported method (Euler, MidPoint, Rk4), any initial
state, and either stepper, integrating a system whose equations all
return 0 yields a trajectory whose every snapshot state equals the
initial state. -/
theorem zero_c8_constant_state (M : Integrator)
    (hM : M = Euler ∨ M = MidPoint ∨ M = Rk4)
    (dxdt : List Ode) (hz : ∀ f ∈ dxdt, ∀ ys τ, f ys τ = 0)
    (xx : List Num) (t0 tmax hmin h : Num) (fuel : Nat) :
    (∀ r ∈ (FixedStep M dxdt xx t0 tmax h fuel).1, r.xx = xx) ∧
    (∀ r ∈ (AdaptiveStep M dxdt xx t0 tmax hmin h fuel).1, r.xx = xx) := by
  have hMz : ∀ (xs : List Num) (T' h' : Num), M xs T' h' dxdt = List.replicate xs.length 0 := by
    rcases hM with rfl | rfl | rfl
    · intro xs T' h'; exact Euler_zero xs T' h' dxdt hz
    · intro xs T' h'; exact MidPoint_zero xs T' h' dxdt hz
    · intro xs T' h'; exact Rk4_zero xs T' h' dxdt hz
  exact ⟨(fixedLoop_zero_states M dxdt tmax h hMz fuel xx t0).1,
    (adaptiveLoop_zero_states M dxdt tmax hmin hMz fuel xx t0 h).1⟩

/-- Witness for C8: the single-row runs of both steppers on dx/dt = 0
from the state `[5]` with `t0 = tmax = 0`. -/
theorem zero_c8_constant_state_witness :
    (⟨0, [5]⟩ : Result).xx = [(5 : Num)] := by
  have hz : ∀ f ∈ ([fun _ _ => 0] : List Ode), ∀ ys τ, f ys τ = 0 := by
    intro f hf ys τ
    simp at hf
    rw [hf]
  exact (zero_c8_constant_state Euler (Or.inl rfl) [fun _ _ => 0] hz [5] 0 0 (1 / 100) 1 1).1
    ⟨0, [5]⟩ (by norm_num [FixedStep, fixedLoop, Euler, addInc, zeroOde])

/-! ### Claim C6: every snapshot stores a deep copy -/

theorem fixedLoop_succ (method : Integrator) (dxdt : List Ode) (tmax h : Num)
    (fuel : Nat) (xx : List Num) (T : Num) (hT : T ≤ tmax) :
    fixedLoop method dxdt tmax h (fuel + 1) xx T
      = (⟨T, xx⟩ :: (fixedLoop method dxdt tmax h fuel
            (addInc xx (method xx T h dxdt)) (T + h)).1,
         (fixedLoop method dxdt tmax h fuel
            (addInc xx (method xx T h dxdt)) (T + h)).2) := by
  rw [fixedLoop, if_pos hT]

theorem fixedLoopRef_succ_fst (method : Integrator) (dxdt : List Ode) (tmax h : Num)
    (fuel : Nat) (s : Store) (live : Nat) (T : Num) (hT : T ≤ tmax) :
    (fixedLoopRef method dxdt tmax h (fuel + 1) s live T).1
      = (fixedLoopRef method dxdt tmax h fuel
          ((s ++ [s.getD live []]).set live
            (addInc (s.getD live []) (method (s.getD live []) T h dxdt))) live (T + h)).1 := by
  rw [fixedLoopRef, if_pos hT]

theorem fixedLoopRef_succ_snd (method : Integrator) (dxdt : List Ode) (tmax h : Num)
    (fuel : Nat) (s : Store) (live : Nat) (T : Num) (hT : T ≤ tmax) :
    (fixedLoopRef method dxdt tmax h (fuel + 1) s live T).2
      = (T, s.length) ::
          (fixedLoopRef method dxdt tmax h fuel
            ((s ++ [s.getD live []]).set live
              (addInc (s.getD live []) (method (s.getD live []) T h dxdt))) live (T + h)).2 := by
  rw [fixedLoopRef, if_pos hT]

theorem adaptiveLoop_succ (method : Integrator) (dxdt : List Ode) (tmax hmin : Num)
    (fuel : Nat) (xx : List Num) (T h : Num) (hT : T ≤ tmax) :
    adaptiveLoop method dxdt tmax hmin (fuel + 1) xx T h
      = (⟨T, xx⟩ :: (adaptiveLoop method dxdt tmax hmin fuel
            (addInc xx (innerLoop method dxdt xx T hmin 4 h).2.2)
            (T + (innerLoop method dxdt xx T hmin 4 h).1)
            (innerLoop method dxdt xx T hmin 4 h).2.1).1,
         (adaptiveLoop method dxdt tmax hmin fuel
            (addInc xx (innerLoop method dxdt xx T hmin 4 h).2.2)
            (T + (innerLoop method dxdt xx T hmin 4 h).1)
            (innerLoop method dxdt xx T hmin 4 h).2.1).2) := by
  rw [adaptiveLoop, if_pos hT]

theorem adaptiveLoopRef_succ_fst (method : Integrator) (dxdt : List Ode) (tmax hmin : Num)
    (fuel : Nat) (s : Store) (live : Nat) (T h : Num) (hT : T ≤ tmax) :
    (adaptiveLoopRef method dxdt tmax hmin (fuel + 1) s live T h).1
      = (adaptiveLoopRef method dxdt tmax hmin fuel
          ((s ++ [s.getD live []]).set live
            (addInc (s.getD live []) (innerLoop method dxdt (s.getD live []) T hmin 4 h).2.2))
          live (T + (innerLoop method dxdt (s.getD live []) T hmin 4 h).1)
          (innerLoop method dxdt (s.getD live []) T hmin 4 h).2.1).1 := by
  rw [adaptiveLoopRef, if_pos hT]

theorem adaptiveLoopRef_succ_snd (method : Integrator) (dxdt : List Ode) (tmax hmin : Num)
    (fuel : Nat) (s : Store) (live : Nat) (T h : Num) (hT : T ≤ tmax) :
    (adaptiveLoopRef method dxdt tmax hmin (fuel + 1) s live T h).2
      = (T, s.length) ::
          (adaptiveLoopRef method dxdt tmax hmin fuel
            ((s ++ [s.getD live []]).set live
              (addInc (s.getD live []) (innerLoop method dxdt (s.getD live []) T hmin 4 h).2.2))
            live (T + (innerLoop method dxdt (s.getD live []) T hmin 4 h).1)
            (innerLoop method dxdt (s.getD live []) T hmin 4 h).2.1).2 := by
  rw [adaptiveLoopRef, if_pos hT]

/-- The store only grows along a run of the reference-level fixed loop,
and slices other than the live one are never written again. -/
theorem fixedLoopRef_store (method : Integrator) (dxdt : List Ode) (tmax h : Num)
    (live : Nat) :
    ∀ (fuel : Nat) (s : Store) (T : Num),
      s.length ≤ (fixedLoopRef method dxdt tmax h fuel s live T).1.length ∧
      ∀ j, j ≠ live → j < s.length →
        (fixedLoopRef method dxdt tmax h fuel s live T).1.getD j []
          = s.getD j [] := by
  intro fuel
  induction fuel with
  | zero => intro s T; exact ⟨le_refl _, fun j _ _ => rfl⟩
  | succ fuel ih =>
    intro s T
    by_cases hT : T ≤ tmax
    · have hfst := fixedLoopRef_succ_fst method dxdt tmax h fuel s live T hT
      set s2 := (s ++ [s.getD live []]).set live
        (addInc (s.getD live []) (method (s.getD live []) T h dxdt)) with hs2
      have hlen2 : s2.length = s.length + 1 := by rw [hs2]; simp
      obtain ⟨ihlen, ihget⟩ := ih s2 (T + h)
      constructor
      · rw [hfst]
        omega
      · intro j hj hjs
        rw [hfst, ihget j hj (by omega)]
        rw [hs2, getD_set, if_neg (by intro hc; exact hj hc.1.symm)]
        exact getD_append_left s [s.getD live []] j [] hjs
    · have h1 : fixedLoopRef method dxdt tmax h (fuel + 1) s live T = (s, []) := by
        rw [fixedLoopRef, if_neg hT]
      rw [h1]
      exact ⟨le_refl _, fun j _ _ => rfl⟩

/-- The store only grows along a run of the reference-level adaptive
loop, and slices other than the live one are never written again. -/
theorem adaptiveLoopRef_store (method : Integrator) (dxdt : List Ode) (tmax hmin : Num)
    (live : Nat) :
    ∀ (fuel : Nat) (s : Store) (T h : Num),
      s.length ≤ (adaptiveLoopRef method dxdt tmax hmin fuel s live T h).1.length ∧
      ∀ j, j ≠ live → j < s.length →
        (adaptiveLoopRef method dxdt tmax hmin fuel s live T h).1.getD j []
          = s.getD j [] := by
  intro fuel
  induction fuel with
  | zero => intro s T h; exact ⟨le_refl _, fun j _ _ => rfl⟩
  | succ fuel ih =>
    intro s T h
    by_cases hT : T ≤ tmax
    · have hfst := adaptiveLoopRef_succ_fst method dxdt tmax hmin fuel s live T h hT
      set s2 := (s ++ [s.getD live []]).set live
        (addInc (s.getD live []) (innerLoop method dxdt (s.getD live []) T hmin 4 h).2.2) with hs2
      have hlen2 : s2.length = s.length + 1 := by rw [hs2]; simp
      obtain ⟨ihlen, ihget⟩ := ih s2
        (T + (innerLoop method dxdt (s.getD live []) T hmin 4 h).1)
        (innerLoop method dxdt (s.getD live []) T hmin 4 h).2.1
      constructor
      · rw [hfst]
        omega
      · intro j hj hjs
        rw [hfst, ihget j hj (by omega)]
        rw [hs2, getD_set, if_neg (by intro hc; exact hj hc.1.symm)]
        exact getD_append_left s [s.getD live []] j [] hjs
    · have h1 : adaptiveLoopRef method dxdt tmax hmin (fuel + 1) s live T h = (s, []) := by
        rw [adaptiveLoopRef, if_neg hT]
      rw [h1]
      exact ⟨le_refl _, fun j _ _ => rfl⟩

/-- Correspondence of the reference-level fixed loop with the value-level
one: dereferencing every recorded snapshot in the final store yields
exactly the value-level trajectory (each snapshot holds the live contents
at its recording time), and no snapshot reference aliases the live
slice. -/
theorem fixedLoopRef_spec (method : Integrator) (dxdt : List Ode) (tmax h : Num)
    (live : Nat) :
    ∀ (fuel : Nat) (s : Store) (T : Num), live < s.length →
      ((fixedLoopRef method dxdt tmax h fuel s live T).2.map
          (fun p => (p.1, (fixedLoopRef method dxdt tmax h fuel s live T).1.getD p.2 []))
        = (fixedLoop method dxdt tmax h fuel (s.getD live []) T).1.map
            (fun r => (r.t, r.xx))) ∧
      ∀ p ∈ (fixedLoopRef method dxdt tmax h fuel s live T).2, p.2 ≠ live := by
  intro fuel
  induction fuel with
  | zero =>
    intro s T hlive
    exact ⟨rfl, by simp [fixedLoopRef]⟩
  | succ fuel ih =>
    intro s T hlive
    by_cases hT : T ≤ tmax
    · have hfst := fixedLoopRef_succ_fst method dxdt tmax h fuel s live T hT
      have hsnd := fixedLoopRef_succ_snd method dxdt tmax h fuel s live T hT
      have hval := fixedLoop_succ method dxdt tmax h fuel (s.getD live []) T hT
      set xx := s.getD live [] with hxx
      set s2 := (s ++ [xx]).set live (addInc xx (method xx T h dxdt)) with hs2
      have hlen2 : s2.length = s.length + 1 := by rw [hs2]; simp
      have hlive2 : live < s2.length := by omega
      have hs2live : s2.getD live [] = addInc xx (method xx T h dxdt) := by
        rw [hs2, getD_set, if_pos ⟨rfl, by simp; omega⟩]
      obtain ⟨ihmap, ihne⟩ := ih s2 (T + h) hlive2
      obtain ⟨ihlen, ihget⟩ := fixedLoopRef_store method dxdt tmax h live fuel s2 (T + h)
      have hhead : (fixedLoopRef method dxdt tmax h fuel s2 live (T + h)).1.getD s.length []
          = xx := by
        rw [ihget s.length (by omega) (by omega)]
        rw [hs2, getD_set, if_neg (by intro hc; omega)]
        exact getD_concat_self s xx []
      constructor
      · rw [hsnd, hfst, hval, List.map_cons, List.map_cons, hhead]
        rw [hs2live] at ihmap
        rw [ihmap]
      · intro p hp
        rw [hsnd] at hp
        rcases List.mem_cons.mp hp with rfl | hp'
        · intro hc
          simp at hc
          omega
        · exact ihne p hp'
    · have h1 : fixedLoopRef method dxdt tmax h (fuel + 1) s live T = (s, []) := by
        rw [fixedLoopRef, if_neg hT]
      have h2 : fixedLoop method dxdt tmax h (fuel + 1) (s.getD live []) T
          = ([], s.getD live []) := by
        rw [fixedLoop, if_neg hT]
      rw [h1, h2]
      exact ⟨rfl, by simp⟩

/-- Correspondence of the reference-level adaptive loop with the
value-level one, as in `fixedLoopRef_spec`. -/
theorem adaptiveLoopRef_spec (method : Integrator) (dxdt : List Ode) (tmax hmin : Num)
    (live : Nat) :
    ∀ (fuel : Nat) (s : Store) (T h : Num), live < s.length →
      ((adaptiveLoopRef method dxdt tmax hmin fuel s live T h).2.map
          (fun p => (p.1, (adaptiveLoopRef method dxdt tmax hmin fuel s live T h).1.getD p.2 []))
        = (adaptiveLoop method dxdt tmax hmin fuel (s.getD live []) T h).1.map
            (fun r => (r.t, r.xx))) ∧
      ∀ p ∈ (adaptiveLoopRef method dxdt tmax hmin fuel s live T h).2, p.2 ≠ live := by
  intro fuel
  induction fuel with
  | zero =>
    intro s T h hlive
    exact ⟨rfl, by simp [adaptiveLoopRef]⟩
  | succ fuel ih =>
    intro s T h hlive
    by_cases hT : T ≤ tmax
    · have hfst := adaptiveLoopRef_succ_fst method dxdt tmax hmin fuel s live T h hT
      have hsnd := adaptiveLoopRef_succ_snd method dxdt tmax hmin fuel s live T h hT
      have hval := adaptiveLoop_succ method dxdt tmax hmin fuel (s.getD live []) T h hT
      set xx := s.getD live [] with hxx
      set res := innerLoop method dxdt xx T hmin 4 h with hres
      set s2 := (s ++ [xx]).set live (addInc xx res.2.2) with hs2
      have hlen2 : s2.length = s.length + 1 := by rw [hs2]; simp
      have hlive2 : live < s2.length := by omega
      have hs2live : s2.getD live [] = addInc xx res.2.2 := by
        rw [hs2, getD_set, if_pos ⟨rfl, by simp; omega⟩]
      obtain ⟨ihmap, ihne⟩ := ih s2 (T + res.1) res.2.1 hlive2
      obtain ⟨ihlen, ihget⟩ :=
        adaptiveLoopRef_store method dxdt tmax hmin live fuel s2 (T + res.1) res.2.1
      have hhead : (adaptiveLoopRef method dxdt tmax hmin fuel s2 live
            (T + res.1) res.2.1).1.getD s.length [] = xx := by
        rw [ihget s.length (by omega) (by omega)]
        rw [hs2, getD_set, if_neg (by intro hc; omega)]
        exact getD_concat_self s xx []
      constructor
      · rw [hsnd, hfst, hval, List.map_cons, List.map_cons, hhead]
        rw [hs2live] at ihmap
        rw [ihmap]
      · intro p hp
        rw [hsnd] at hp
        rcases List.mem_cons.mp hp with rfl | hp'
        · intro hc
          simp at hc
          omega
        · exact ihne p hp'
    · have h1 : adaptiveLoopRef method dxdt tmax hmin (fuel + 1) s live T h = (s, []) := by
        rw [adaptiveLoopRef, if_neg hT]
      have h2 : adaptiveLoop method dxdt tmax hmin (fuel + 1) (s.getD live []) T h
          = ([], s.getD live []) := by
        rw [adaptiveLoop, if_neg hT]
      rw [h1, h2]
      exact ⟨rfl, by simp⟩

/-- C6: in the reference-level model of both steppers, every recorded
snapshot is a deep copy: dereferenced in the final store it equals the
live state at its recording time (the value-level trajectory), its
reference never aliases the live slice, and overwriting the live slice
after the run (a subsequent mutation of the live state vector through
the caller's array) leaves the stored state of every previously recorded
snapshot unchanged. -/
theorem steppers_c6_snapshot_copy (method : Integrator) (dxdt : List Ode)
    (tmax hmin h : Num) (fuel : Nat) (s : Store) (live : Nat) (T : Num)
    (hlive : live < s.length) :
    (((fixedLoopRef method dxdt tmax h fuel s live T).2.map
        (fun p => (p.1, (fixedLoopRef method dxdt tmax h fuel s live T).1.getD p.2 []))
      = (fixedLoop method dxdt tmax h fuel (s.getD live []) T).1.map
          (fun r => (r.t, r.xx))) ∧
     ∀ p ∈ (fixedLoopRef method dxdt tmax h fuel s live T).2,
       p.2 ≠ live ∧
       ∀ w, ((fixedLoopRef method dxdt tmax h fuel s live T).1.set live w).getD p.2 []
          = (fixedLoopRef method dxdt tmax h fuel s live T).1.getD p.2 []) ∧
    (((adaptiveLoopRef method dxdt tmax hmin fuel s live T h).2.map
        (fun p => (p.1, (adaptiveLoopRef method dxdt tmax hmin fuel s live T h).1.getD p.2 []))
      = (adaptiveLoop method dxdt tmax hmin fuel (s.getD live []) T h).1.map
          (fun r => (r.t, r.xx))) ∧
     ∀ p ∈ (adaptiveLoopRef method dxdt tmax hmin fuel s live T h).2,
       p.2 ≠ live ∧
       ∀ w, ((adaptiveLoopRef method dxdt tmax hmin fuel s live T h).1.set live w).getD p.2 []
          = (adaptiveLoopRef method dxdt tmax hmin fuel s live T h).1.getD p.2 []) := by
  obtain ⟨hfmap, hfne⟩ := fixedLoopRef_spec method dxdt tmax h live fuel s T hlive
  obtain ⟨hamap, hane⟩ := adaptiveLoopRef_spec method dxdt tmax hmin live fuel s T h hlive
  refine ⟨⟨hfmap, ?_⟩, ⟨hamap, ?_⟩⟩
  · intro p hp
    refine ⟨hfne p hp, ?_⟩
    intro w
    rw [getD_set, if_neg (by intro hc; exact hfne p hp hc.1.symm)]
  · intro p hp
    refine ⟨hane p hp, ?_⟩
    intro w
    rw [getD_set, if_neg (by intro hc; exact hane p hp hc.1.symm)]

/-- Witness for C6: a one-snapshot run of each stepper from the store
`[[5]]` with the live state at reference 0. -/
theorem steppers_c6_snapshot_copy_witness :
    ((fixedLoopRef (fun _ _ _ _ => []) [] 0 1 1 [[(5 : Num)]] 0 0).2.map
        (fun p => (p.1, (fixedLoopRef (fun _ _ _ _ => []) [] 0 1 1 [[(5 : Num)]] 0 0).1.getD p.2 []))
      = (fixedLoop (fun _ _ _ _ => []) [] 0 1 1 [(5 : Num)] 0).1.map
          (fun r => (r.t, r.xx))) ∧
    ∀ p ∈ (fixedLoopRef (fun _ _ _ _ => []) [] 0 1 1 [[(5 : Num)]] 0 0).2, p.2 ≠ 0 := by
  have hmain := steppers_c6_snapshot_copy (fun _ _ _ _ => []) [] 0 (1 / 100) 1 1
    [[(5 : Num)]] 0 0 (by simp)
  exact ⟨hmain.1.1, fun p hp => (hmain.1.2 p hp).1⟩

end ODE
